import Mathlib

/-!
Verification of the document-tree model and path-resolution logic of
`remarkable_usb_api` (files `rest_api.py` and `rm_rest_api_types.py`).

The embedding below mirrors the Python source:
* `RMApiDocument` keeps exactly the raw-record fields that `rest_api.py`
  reads (`ID`, `Parent`, `Type`, `VissibleName`, `sizeInBytes`, `pageCount`);
  `sizeInBytes` is stored by the device as a decimal string and immediately
  converted with `int(...)`, so it is modelled as the parsed `Option Int`.
  The `Type` field is a plain string: the `else` branch of `get_documents`
  explicitly handles values other than `DocumentType`/`CollectionType`.
* Python `Path` values are modelled as their list of segments
  (`RPath := List String`), `Path(".")` being `[]`; `fn.parent` is
  `fn.dropLast` and `fn.name` the last segment.
* `Folder` in Python holds an optional back-reference `folder` to its parent
  `Folder`.  The optional recursive field is unfolded into the two
  constructors `root` (folder is None) and `child` (folder is some parent);
  `Folder.folder` recovers the Python attribute and `Folder.make` is the
  Python constructor taking the optional parent.
* Exceptions (`RuntimeError`, failed `assert`) are modelled with
  `Except String` / `Option`: `none` or `.error` is a raised fatal error.
* The HTTP transport is an oracle `fetch : Option String → List RMApiDocument`
  standing for `RemarkableRESTRaw.read_folder` (retries are internal to the
  transport).  The unbounded mutual recursion of `get_documents` over folder
  ids is made total with an explicit fuel argument; exhausted fuel yields
  `none`, matching the absence of cycle protection in the source.
* `name.endswith(".pdf")` and `name[:-4]` operate on Python strings, i.e.
  sequences of codepoints; they are modelled on `String.data`.
* `find_file`/`mkdir` accept `docs=None` in Python only as a convenience that
  refetches the snapshot first; here the snapshot is always an explicit
  argument, as in every claim.
-/

structure RMApiDocument where
  ID : String
  Parent : String
  «Type» : String
  VissibleName : String
  sizeInBytes : Option Int
  pageCount : Option Int
deriving DecidableEq, Repr

/-- `Folder` from `rest_api.py`, with the optional recursive back-reference
`folder : Optional[Folder]` unfolded into two constructors. -/
inductive Folder : Type where
  | root (id_ : String) (visible_name : String) (parent_id : Option String)
      (raw_ : RMApiDocument) : Folder
  | child (id_ : String) (parentF : Folder) (visible_name : String)
      (parent_id : Option String) (raw_ : RMApiDocument) : Folder
deriving DecidableEq, Repr

/-- The Python constructor `Folder(id_=…, folder=…, visible_name=…, parent_id=…, raw_=…)`. -/
def Folder.make (id_ : String) (folder : Option Folder) (visible_name : String)
    (parent_id : Option String) (raw_ : RMApiDocument) : Folder :=
  match folder with
  | none => .root id_ visible_name parent_id raw_
  | some p => .child id_ p visible_name parent_id raw_

def Folder.id_ : Folder → String
  | .root i _ _ _ => i
  | .child i _ _ _ _ => i

/-- The Python attribute `folder : Optional[Folder]`. -/
def Folder.folder : Folder → Option Folder
  | .root _ _ _ _ => none
  | .child _ p _ _ _ => some p

def Folder.visible_name : Folder → String
  | .root _ n _ _ => n
  | .child _ _ n _ _ => n

def Folder.parent_id : Folder → Option String
  | .root _ _ p _ => p
  | .child _ _ _ p _ => p

/-- `Document` from `rest_api.py`. -/
structure Document where
  id_ : String
  folder : Option Folder
  visible_name : String
  length : Int
  extension : String
  page_count : Int
  parent_id : Option String
  raw_ : RMApiDocument
deriving DecidableEq, Repr

/-- An element of the `List[Union[Document, Folder]]` lists of the source. -/
inductive Entity : Type where
  | doc (d : Document) : Entity
  | fold (f : Folder) : Entity
deriving DecidableEq, Repr

def Entity.id_ : Entity → String
  | .doc d => d.id_
  | .fold f => f.id_

def Entity.visible_name : Entity → String
  | .doc d => d.visible_name
  | .fold f => f.visible_name

def Entity.parent_id : Entity → Option String
  | .doc d => d.parent_id
  | .fold f => f.parent_id

/-- The `folder` back-reference of either kind of entity. -/
def entFolder : Entity → Option Folder
  | .doc d => d.folder
  | .fold f => f.folder

/-- A Python `Path` as its list of segments; `Path(".")` is `[]`. -/
abbrev RPath := List String

/-- `str(fn)` for a relative `Path`, used in error messages. -/
def pathStr (fn : RPath) : String :=
  String.intercalate "/" fn

/-- `Folder.filename`: walk the parent back-references.
Python: `Path(visible_name)` at the root, else `folder.filename / visible_name`. -/
def Folder.filename : Folder → RPath
  | .root _ n _ _ => [n]
  | .child _ p n _ _ => Folder.filename p ++ [n]

/-- `Document.filename`: Python returns `Path(visible_name)` when `folder is None`,
else `folder.filename / f"{visible_name}.{extension}"`. -/
def Document.filename (d : Document) : RPath :=
  match d.folder with
  | none => [d.visible_name]
  | some f => f.filename ++ [d.visible_name ++ "." ++ d.extension]

def Entity.filename : Entity → RPath
  | .doc d => d.filename
  | .fold f => f.filename

/-- Python `name.endswith(".pdf")` on the codepoint sequence. -/
def ends_with_pdf (s : String) : Bool :=
  decide (4 ≤ s.data.length) && s.data.drop (s.data.length - 4) == ".pdf".data

/-- The name normalisation at the top of `_find_doc`:
`if name.endswith(".pdf"): name = name[:-4]`. -/
def strip_pdf (name : String) : String :=
  if ends_with_pdf name then String.mk (name.data.take (name.data.length - 4)) else name

/-- `_find_doc` from `rest_api.py`: strip a `.pdf` suffix, collect the entities
matching name and parent id, and return the first or `None`. -/
def _find_doc (name : String) (parent_id : Option String) (docs : List Entity) :
    Option Entity :=
  let name' := strip_pdf name
  let res := docs.filter fun d =>
    Entity.visible_name d == name' && Entity.parent_id d == parent_id
  res.head?

/-- Conversion of one raw record inside the `for raw in docs.documents` loop of
`get_documents`.  Outer `none` is a failed `assert` (fatal); inner `none` is the
warned-and-skipped unknown `Type`. -/
def parseRecord (parent : Option Folder) (raw : RMApiDocument) :
    Option (Option Entity) :=
  if raw.«Type» = "DocumentType" then
    match raw.sizeInBytes, raw.pageCount with
    | some size, some pc =>
      some (some (Entity.doc
        { raw_ := raw
          id_ := raw.ID
          folder := parent
          visible_name := raw.VissibleName
          length := size
          extension := "pdf"
          page_count := pc
          parent_id := if raw.Parent = "" then none else some raw.Parent }))
    | _, _ => none
  else if raw.«Type» = "CollectionType" then
    some (some (Entity.fold (Folder.make raw.ID parent raw.VissibleName
      (if raw.Parent = "" then none else some raw.Parent) raw)))
  else
    some none

/-- The whole conversion loop of `get_documents` over one fetched level. -/
def parseRecords (parent : Option Folder) : List RMApiDocument → Option (List Entity)
  | [] => some []
  | r :: rest =>
    match parseRecord parent r with
    | none => none
    | some none => parseRecords parent rest
    | some (some e) => (parseRecords parent rest).map fun l => e :: l

/-- The `if recurse:` loop of `get_documents`: for every `Folder` of the current
level, fetch its children through `rec` and concatenate the results. -/
def get_subs_aux (rec : Option String → Option Folder → Option (List Entity)) :
    List Entity → Option (List Entity)
  | [] => some []
  | Entity.doc _ :: rest => get_subs_aux rec rest
  | Entity.fold f :: rest =>
    match rec (some (Folder.id_ f)) (some f) with
    | none => none
    | some children =>
      match get_subs_aux rec rest with
      | none => none
      | some subs => some (children ++ subs)

/-- `RemarkableREST.get_documents` over a transport oracle `fetch`, with fuel
bounding the folder-nesting depth (the Python recursion has no cycle guard). -/
def get_documents (fetch : Option String → List RMApiDocument) :
    Nat → Option String → Bool → Option Folder → Option (List Entity)
  | 0, _, _, _ => none
  | fuel + 1, folder_id, recurse, parent =>
    match parseRecords parent (fetch folder_id) with
    | none => none
    | some level =>
      if recurse then
        match get_subs_aux (fun fid p => get_documents fetch fuel fid recurse p) level with
        | none => none
        | some subs => some (level ++ subs)
      else
        some level

/-- `RemarkableREST.find_file` restructured on the reversed segment list (the
Python function recurses on `fn.parent` and then looks up `fn.name`; here the
final name is the head of the reversed list, making the recursion structural).
`[]` is `Path(".")`, whose `.name` is the empty string. -/
def ff_aux (docs : List Entity) : List String → Option Entity
  | [] => _find_doc "" none docs
  | [name] => _find_doc name none docs
  | name :: rest₁ :: rest₂ =>
    match ff_aux docs (rest₁ :: rest₂) with
    | none => none
    | some parent => _find_doc name (some (Entity.id_ parent)) docs

def find_file (fn : RPath) (docs : List Entity) : Option Entity :=
  ff_aux docs fn.reverse

/-- The message of `RemarkableRESTRaw.mkdir`'s `RuntimeError`. -/
def notImplementedMsg (fn : RPath) : String :=
  "mkdir: not implemented; please create the following folder on the remarkable: ("
    ++ pathStr fn ++ ")"

/-- The message of the name-collision `RuntimeError` in `RemarkableREST.mkdir`. -/
def docExistsMsg (fn : RPath) : String :=
  "mkdir: document of same name exists '" ++ pathStr fn ++ "'"

/-- `RemarkableRESTRaw.mkdir`: unconditionally raises. -/
def raw_mkdir (fn : RPath) : Except String Folder :=
  Except.error (notImplementedMsg fn)

/-- The tail of `RemarkableREST.mkdir` after the parent id has been resolved
and `folder = _find_doc(fn.name, parent_id=…, docs=…)` computed. -/
def mkdirFinal (fn : RPath) (exists_ok : Bool) (folder : Option Entity) :
    Except String Folder :=
  if folder.isSome && !exists_ok then Except.error "folder already exists"
  else
    match folder with
    | some (.doc _) => Except.error (docExistsMsg fn)
    | some (.fold f) =>
      if !exists_ok then Except.error "folder already exists" else Except.ok f
    | none => raw_mkdir fn

/-- `RemarkableREST.mkdir` on the reversed segment list (same restructuring as
`ff_aux`): resolve the parent id — through a recursive `mkdir(fn.parent,
exists_ok=True, parents=True, …)` when `parents`, else through `find_file` —
then run the final lookup/collision logic. -/
def mkdir_aux (docs : List Entity) : Bool → Bool → List String → Except String Folder
  | exists_ok, _, [] => mkdirFinal [] exists_ok (_find_doc "" none docs)
  | exists_ok, _, [name] => mkdirFinal [name] exists_ok (_find_doc name none docs)
  | exists_ok, parents, name :: rest₁ :: rest₂ =>
    match
      (if parents then
        match mkdir_aux docs true true (rest₁ :: rest₂) with
        | Except.error e => Except.error e
        | Except.ok F => Except.ok (Folder.id_ F)
      else
        match ff_aux docs (rest₁ :: rest₂) with
        | none => Except.error "parent does not exist"
        | some p => Except.ok (Entity.id_ p) : Except String String)
    with
    | Except.error e => Except.error e
    | Except.ok pid =>
      mkdirFinal ((name :: rest₁ :: rest₂).reverse) exists_ok
        (_find_doc name (some pid) docs)

def mkdir (fn : RPath) (exists_ok parents : Bool) (docs : List Entity) :
    Except String Folder :=
  mkdir_aux docs exists_ok parents fn.reverse

/-! ### Predicates used in the statements -/

/-- Snapshot invariant: no two entities share display name and parent id
(the spec's uniqueness assumption for a well-formed device listing). -/
def UniqueNames (docs : List Entity) : Prop :=
  ∀ E₁ ∈ docs, ∀ E₂ ∈ docs,
    Entity.visible_name E₁ = Entity.visible_name E₂ →
    Entity.parent_id E₁ = Entity.parent_id E₂ → E₁ = E₂

/-- No display name in the snapshot ends in `.pdf` (such names are mangled by
the suffix-stripping of `_find_doc`). -/
def NoPdfNames (docs : List Entity) : Prop :=
  ∀ E ∈ docs, ends_with_pdf (Entity.visible_name E) = false

/-- The entity's `parent_id` string agrees with its `folder` back-reference,
and the back-referenced folder (if any) is itself listed in `docs`. -/
def LinkOk (docs : List Entity) (E : Entity) : Prop :=
  match entFolder E with
  | none => Entity.parent_id E = none
  | some G => Entity.parent_id E = some (Folder.id_ G) ∧ Entity.fold G ∈ docs

/-- What `get_documents` guarantees for each produced entity: the `parent_id`
string matches the `folder` back-reference, the back-referenced folder is the
call's `parent` or occurs in the output, and documents carry extension `pdf`. -/
def GoodEntity (parent : Option Folder) (out : List Entity) (E : Entity) : Prop :=
  Entity.parent_id E = Option.map Folder.id_ (entFolder E) ∧
  (entFolder E = parent ∨ ∃ G, entFolder E = some G ∧ Entity.fold G ∈ out) ∧
  (∀ d, E = Entity.doc d → d.extension = "pdf")

/-- Invariant tying the `folder_id` argument of a `get_documents` call to its
`parent` argument: recursive calls pass `folder_id=doc.id_, parent=doc`. -/
def ParentMatch (fid : Option String) (parent : Option Folder) : Prop :=
  match parent with
  | none => fid = none
  | some F => fid = some (Folder.id_ F) ∧ Folder.id_ F ≠ ""

/-- The chain of `folder` back-references starting at a folder (itself first). -/
def Folder.ancestors : Folder → List Folder
  | .root i n p r => [Folder.root i n p r]
  | .child i pf n p r => Folder.child i pf n p r :: Folder.ancestors pf

/-- The strict ancestors of an entity whose back-reference is the argument. -/
def chainFolders : Option Folder → List Folder
  | none => []
  | some f => f.ancestors

/-- Every entity of the list has all its ancestor folders among the entities
before it (`pre` are the entities already emitted). -/
def ChainClosed : List Entity → List Entity → Prop
  | _, [] => True
  | pre, E :: rest =>
    (∀ F ∈ chainFolders (entFolder E), Entity.fold F ∈ pre) ∧
    ChainClosed (pre ++ [E]) rest

/-- Every proper non-empty ancestor prefix of `fn` resolves to a `Folder`. -/
def PrefixFolders (docs : List Entity) (fn : RPath) : Prop :=
  ∀ l₁ l₂, fn = l₁ ++ l₂ → l₁ ≠ [] → l₂ ≠ [] →
    ∃ G, find_file l₁ docs = some (Entity.fold G)

/-- Reversed-list form of `PrefixFolders`, matching the recursion of
`mkdir_aux`: every proper non-empty tail resolves to a `Folder`. -/
def ResolvChain (docs : List Entity) : List String → Prop
  | [] => True
  | [_] => True
  | _ :: rest₁ :: rest₂ =>
    (∃ G, ff_aux docs (rest₁ :: rest₂) = some (Entity.fold G)) ∧
    ResolvChain docs (rest₁ :: rest₂)

/-! ### Concrete sample data for witnesses and counterexamples -/

/-- A raw `CollectionType` record at the root. -/
def rawFolderA : RMApiDocument :=
  { ID := "1", Parent := "", «Type» := "CollectionType", VissibleName := "A",
    sizeInBytes := none, pageCount := none }

/-- A raw `DocumentType` record inside folder `"1"`. -/
def rawDocB : RMApiDocument :=
  { ID := "2", Parent := "1", «Type» := "DocumentType", VissibleName := "B",
    sizeInBytes := some 10, pageCount := some 2 }

/-- A raw record of an unrecognised type, skipped with a warning. -/
def rawTrash : RMApiDocument :=
  { ID := "3", Parent := "", «Type» := "TrashType", VissibleName := "T",
    sizeInBytes := none, pageCount := none }

/-- A transport oracle: root holds folder `A` and a skipped record; folder `1`
holds document `B`. -/
def sampleFetch : Option String → List RMApiDocument
  | none => [rawFolderA, rawTrash]
  | some f => if f = "1" then [rawDocB] else []

def folderA : Folder := Folder.root "1" "A" none rawFolderA

def documentB : Document :=
  { id_ := "2", folder := some folderA, visible_name := "B", length := 10,
    extension := "pdf", page_count := 2, parent_id := some "1", raw_ := rawDocB }

def sampleOut : List Entity := [Entity.fold folderA, Entity.doc documentB]

/-- Root folder record whose display name ends in `.pdf`. -/
def rawFolderXpdf : RMApiDocument :=
  { ID := "9", Parent := "", «Type» := "CollectionType", VissibleName := "X.pdf",
    sizeInBytes := none, pageCount := none }

def fetchXpdf : Option String → List RMApiDocument
  | none => [rawFolderXpdf]
  | some _ => []

def folderXpdf : Folder := Folder.root "9" "X.pdf" none rawFolderXpdf

/-- A root document named `a`. -/
def documentA : Document :=
  { id_ := "d1", folder := none, visible_name := "a", length := 1,
    extension := "pdf", page_count := 1, parent_id := none, raw_ :=
      { ID := "d1", Parent := "", «Type» := "DocumentType", VissibleName := "a",
        sizeInBytes := some 1, pageCount := some 1 } }

/-- A folder `B` whose `parent_id` is the id of the *document* `documentA`. -/
def folderUnderDoc : Folder :=
  Folder.root "f2" "B" (some "d1")
    { ID := "f2", Parent := "d1", «Type» := "CollectionType", VissibleName := "B",
      sizeInBytes := none, pageCount := none }

def docsUnderDoc : List Entity := [Entity.doc documentA, Entity.fold folderUnderDoc]

/-- A raw `DocumentType` record missing its `sizeInBytes`. -/
def rawBadDoc : RMApiDocument :=
  { ID := "4", Parent := "", «Type» := "DocumentType", VissibleName := "bad",
    sizeInBytes := none, pageCount := some 1 }

/-- A subfolder `sub` of `folderA`. -/
def folderSub : Folder :=
  Folder.child "5" folderA "sub" (some "1")
    { ID := "5", Parent := "1", «Type» := "CollectionType", VissibleName := "sub",
      sizeInBytes := none, pageCount := none }

/-- A snapshot with a two-level folder chain `A/sub`. -/
def docsFolders : List Entity := [Entity.fold folderA, Entity.fold folderSub]

/-! ### Basic lemmas about the string stripping -/

theorem strip_append (t : String) : strip_pdf (t ++ ".pdf") = t := by
  obtain ⟨d⟩ := t
  show strip_pdf ⟨d ++ ['.', 'p', 'd', 'f']⟩ = ⟨d⟩
  unfold strip_pdf ends_with_pdf
  simp [List.length_append, Nat.add_sub_cancel, List.drop_left, List.take_left]

theorem strip_of_not_pdf (s : String) (h : ends_with_pdf s = false) :
    strip_pdf s = s := by
  unfold strip_pdf
  rw [h]
  simp

theorem strip_ne_of_pdf (s : String) (h : ends_with_pdf s = true) :
    strip_pdf s ≠ s := by
  have h4 : 4 ≤ s.data.length := by
    unfold ends_with_pdf at h
    have := (Bool.and_eq_true _ _).mp h
    exact of_decide_eq_true this.1
  unfold strip_pdf
  rw [h]
  simp only [if_pos]
  intro he
  have hlen := congrArg (fun x => x.data.length) he
  simp only [List.length_take] at hlen
  omega

/-! ### Basic lemmas about `_find_doc` -/

theorem head_filter_eq {α : Type} (l : List α) (p : α → Bool) (a : α)
    (ha : a ∈ l) (hpa : p a = true) (huniq : ∀ b ∈ l, p b = true → b = a) :
    (l.filter p).head? = some a := by
  induction l with
  | nil => cases ha
  | cons x xs ih =>
    by_cases hx : p x = true
    · rw [List.filter_cons_of_pos hx]
      have : x = a := huniq x (List.mem_cons_self x xs) hx
      simp [this]
    · rw [List.filter_cons_of_neg (by simpa using hx)]
      rcases List.mem_cons.mp ha with h | h
      · exact absurd (h ▸ hpa) hx
      · exact ih h fun b hb hpb => huniq b (List.mem_cons_of_mem _ hb) hpb

theorem _find_doc_eq (docs : List Entity) (E : Entity) (name : String)
    (pid : Option String) (hE : E ∈ docs)
    (hname : Entity.visible_name E = strip_pdf name)
    (hpid : Entity.parent_id E = pid) (hU : UniqueNames docs) :
    _find_doc name pid docs = some E := by
  unfold _find_doc
  apply head_filter_eq docs _ E hE
  · simp [hname, hpid]
  · intro b hb hpb
    simp only [Bool.and_eq_true, beq_iff_eq] at hpb
    exact hU b hb E hE (hpb.1.trans hname.symm) (hpb.2.trans hpid.symm)

theorem _find_doc_some (docs : List Entity) (E : Entity) (name : String)
    (pid : Option String) (h : _find_doc name pid docs = some E) :
    E ∈ docs ∧ Entity.visible_name E = strip_pdf name ∧ Entity.parent_id E = pid := by
  simp only [_find_doc] at h
  have hmem : E ∈ docs.filter fun d =>
      Entity.visible_name d == strip_pdf name && Entity.parent_id d == pid := by
    rcases hh : docs.filter fun d =>
        Entity.visible_name d == strip_pdf name && Entity.parent_id d == pid with _ | ⟨x, xs⟩ <;>
      rw [hh] at h
    · cases h
    · simp only [List.head?_cons, Option.some.injEq] at h
      exact h ▸ List.mem_cons_self x xs
  have := List.mem_filter.mp hmem
  refine ⟨this.1, ?_, ?_⟩
  · have := this.2
    simp only [Bool.and_eq_true, beq_iff_eq] at this
    exact this.1
  · have := this.2
    simp only [Bool.and_eq_true, beq_iff_eq] at this
    exact this.2

theorem _find_doc_congr (a b : String) (pid : Option String) (docs : List Entity)
    (h : strip_pdf a = strip_pdf b) :
    _find_doc a pid docs = _find_doc b pid docs := by
  unfold _find_doc
  rw [h]

/-! ### Basic lemmas about `ff_aux` and `find_file` -/

theorem ff_aux_cons (docs : List Entity) (x : String) (rest : List String)
    (h : rest ≠ []) :
    ff_aux docs (x :: rest) =
      match ff_aux docs rest with
      | none => none
      | some parent => _find_doc x (some (Entity.id_ parent)) docs := by
  rcases rest with _ | ⟨a, t⟩
  · exact absurd rfl h
  · rfl

theorem filename_ne_nil (F : Folder) : Folder.filename F ≠ [] := by
  cases F <;> simp [Folder.filename]

/-! ### Lemmas about `Folder.make` -/

theorem Folder.make_folder (i : String) (po : Option Folder) (n : String)
    (p : Option String) (r : RMApiDocument) : (Folder.make i po n p r).folder = po := by
  cases po <;> rfl

theorem Folder.make_id (i : String) (po : Option Folder) (n : String)
    (p : Option String) (r : RMApiDocument) : (Folder.make i po n p r).id_ = i := by
  cases po <;> rfl

theorem Folder.make_visible_name (i : String) (po : Option Folder) (n : String)
    (p : Option String) (r : RMApiDocument) :
    (Folder.make i po n p r).visible_name = n := by
  cases po <;> rfl

theorem Folder.make_parent_id (i : String) (po : Option Folder) (n : String)
    (p : Option String) (r : RMApiDocument) :
    (Folder.make i po n p r).parent_id = p := by
  cases po <;> rfl

/-! ### Lemmas about the record parser -/

theorem parseRecord_doc (parent : Option Folder) (r : RMApiDocument) (sz pc : Int)
    (hT : r.«Type» = "DocumentType") (hs : r.sizeInBytes = some sz)
    (hp : r.pageCount = some pc) :
    parseRecord parent r = some (some (Entity.doc
      { raw_ := r, id_ := r.ID, folder := parent, visible_name := r.VissibleName,
        length := sz, extension := "pdf", page_count := pc,
        parent_id := if r.Parent = "" then none else some r.Parent })) := by
  unfold parseRecord
  rw [if_pos hT, hs, hp]

theorem parseRecord_doc_missing (parent : Option Folder) (r : RMApiDocument)
    (hT : r.«Type» = "DocumentType")
    (h : r.sizeInBytes = none ∨ r.pageCount = none) :
    parseRecord parent r = none := by
  unfold parseRecord
  rw [if_pos hT]
  rcases h with h | h
  · rw [h]
  · rw [h]
    cases r.sizeInBytes <;> rfl

theorem parseRecord_none (parent : Option Folder) (r : RMApiDocument)
    (h : parseRecord parent r = none) :
    r.«Type» = "DocumentType" ∧ (r.sizeInBytes = none ∨ r.pageCount = none) := by
  unfold parseRecord at h
  by_cases h1 : r.«Type» = "DocumentType"
  · rw [if_pos h1] at h
    refine ⟨h1, ?_⟩
    rcases hs : r.sizeInBytes with _ | sz
    · exact Or.inl rfl
    · rcases hp : r.pageCount with _ | pc
      · exact Or.inr rfl
      · rw [hs, hp] at h; cases h
  · rw [if_neg h1] at h
    by_cases h2 : r.«Type» = "CollectionType" <;> simp [h2] at h

theorem parseRecord_some_some (parent : Option Folder) (r : RMApiDocument)
    (e : Entity) (h : parseRecord parent r = some (some e)) :
    entFolder e = parent ∧
    (∀ d, e = Entity.doc d → d.extension = "pdf") ∧
    Entity.parent_id e = (if r.Parent = "" then none else some r.Parent) ∧
    Entity.id_ e = r.ID := by
  unfold parseRecord at h
  by_cases h1 : r.«Type» = "DocumentType"
  · rw [if_pos h1] at h
    rcases hs : r.sizeInBytes with _ | sz <;> rw [hs] at h
    · cases h
    · rcases hp : r.pageCount with _ | pc <;> rw [hp] at h
      · cases h
      · injection h with h
        injection h with h
        subst h
        refine ⟨rfl, ?_, rfl, rfl⟩
        intro d hd
        cases hd
        rfl
  · rw [if_neg h1] at h
    by_cases h2 : r.«Type» = "CollectionType"
    · rw [if_pos h2] at h
      injection h with h
      injection h with h
      subst h
      refine ⟨?_, ?_, ?_, ?_⟩
      · show Folder.folder _ = parent
        exact Folder.make_folder _ _ _ _ _
      · intro d hd
        cases hd
      · show Folder.parent_id _ = _
        exact Folder.make_parent_id _ _ _ _ _
      · show Folder.id_ _ = _
        exact Folder.make_id _ _ _ _ _
    · rw [if_neg h2] at h
      injection h with h
      cases h

theorem parseRecord_skip (parent : Option Folder) (r : RMApiDocument)
    (h : parseRecord parent r = some none) :
    (r.«Type» == "DocumentType" || r.«Type» == "CollectionType") = false := by
  unfold parseRecord at h
  by_cases h1 : r.«Type» = "DocumentType"
  · rw [if_pos h1] at h
    rcases hs : r.sizeInBytes with _ | sz <;> rw [hs] at h
    · cases h
    · rcases hp : r.pageCount with _ | pc <;> rw [hp] at h
      · cases h
      · injection h with h; cases h
  · by_cases h2 : r.«Type» = "CollectionType"
    · rw [if_neg h1, if_pos h2] at h
      injection h with h
      cases h
    · simp [h1, h2]

theorem parseRecord_keep (parent : Option Folder) (r : RMApiDocument) (e : Entity)
    (h : parseRecord parent r = some (some e)) :
    (r.«Type» == "DocumentType" || r.«Type» == "CollectionType") = true := by
  unfold parseRecord at h
  by_cases h1 : r.«Type» = "DocumentType"
  · simp [h1]
  · by_cases h2 : r.«Type» = "CollectionType"
    · simp [h2]
    · rw [if_neg h1, if_neg h2] at h
      injection h with h
      cases h

theorem parseRecords_mem (parent : Option Folder) :
    ∀ recs l, parseRecords parent recs = some l →
      ∀ E ∈ l, entFolder E = parent ∧
        (∀ d, E = Entity.doc d → d.extension = "pdf") ∧
        ∃ r ∈ recs,
          Entity.parent_id E = (if r.Parent = "" then none else some r.Parent) ∧
          Entity.id_ E = r.ID := by
  intro recs
  induction recs with
  | nil =>
    intro l h E hE
    simp only [parseRecords, Option.some.injEq] at h
    subst h
    cases hE
  | cons r rest ih =>
    intro l h E hE
    unfold parseRecords at h
    rcases hpr : parseRecord parent r with _ | ⟨_ | e⟩ <;> rw [hpr] at h
    · cases h
    · obtain ⟨h1, h2, rr, hrr, h3⟩ := ih l h E hE
      exact ⟨h1, h2, rr, List.mem_cons_of_mem _ hrr, h3⟩
    · rcases hrec : parseRecords parent rest with _ | l' <;> rw [hrec] at h
      · cases h
      · simp only [Option.map_some', Option.some.injEq] at h
        subst h
        rcases List.mem_cons.mp hE with rfl | hE'
        · obtain ⟨h1, h2, h3, h4⟩ := parseRecord_some_some parent r E hpr
          exact ⟨h1, h2, r, List.mem_cons_self _ _, h3, h4⟩
        · obtain ⟨h1, h2, rr, hrr, h3⟩ := ih l' hrec E hE'
          exact ⟨h1, h2, rr, List.mem_cons_of_mem _ hrr, h3⟩

theorem parseRecords_length (parent : Option Folder) :
    ∀ recs l, parseRecords parent recs = some l →
      l.length = (recs.filter fun r =>
        r.«Type» == "DocumentType" || r.«Type» == "CollectionType").length := by
  intro recs
  induction recs with
  | nil =>
    intro l h
    simp only [parseRecords, Option.some.injEq] at h
    subst h
    rfl
  | cons r rest ih =>
    intro l h
    unfold parseRecords at h
    rcases hpr : parseRecord parent r with _ | ⟨_ | e⟩ <;> rw [hpr] at h
    · cases h
    · simp only [List.filter_cons, parseRecord_skip parent r hpr, if_false,
        Bool.false_eq_true]
      exact ih l h
    · rcases hrec : parseRecords parent rest with _ | l' <;> rw [hrec] at h
      · cases h
      · simp only [Option.map_some', Option.some.injEq] at h
        subst h
        simp only [List.filter_cons, parseRecord_keep parent r e hpr, if_true,
          List.length_cons]
        rw [ih l' hrec]

theorem parseRecords_total (parent : Option Folder) :
    ∀ recs, (∀ r ∈ recs, r.«Type» = "DocumentType" →
        r.sizeInBytes.isSome ∧ r.pageCount.isSome) →
      ∃ l, parseRecords parent recs = some l := by
  intro recs
  induction recs with
  | nil => intro _; exact ⟨[], rfl⟩
  | cons r rest ih =>
    intro hOK
    obtain ⟨l', hl'⟩ := ih fun rr hrr => hOK rr (List.mem_cons_of_mem _ hrr)
    rcases hpr : parseRecord parent r with _ | ⟨_ | e⟩
    · obtain ⟨hT, hmiss⟩ := parseRecord_none parent r hpr
      obtain ⟨hs, hp⟩ := hOK r (List.mem_cons_self _ _) hT
      rcases hmiss with hm | hm
      · rw [hm] at hs
        simp at hs
      · rw [hm] at hp
        simp at hp
    · refine ⟨l', ?_⟩
      unfold parseRecords
      rw [hpr]
      exact hl'
    · refine ⟨e :: l', ?_⟩
      unfold parseRecords
      rw [hpr, hl']
      rfl

theorem parseRecords_fail (parent : Option Folder) (r : RMApiDocument)
    (hr : parseRecord parent r = none) :
    ∀ recs, r ∈ recs → parseRecords parent recs = none := by
  intro recs
  induction recs with
  | nil => intro h; cases h
  | cons a rest ih =>
    intro hmem
    rcases List.mem_cons.mp hmem with rfl | hmem'
    · unfold parseRecords
      rw [hr]
    · unfold parseRecords
      rcases hpr : parseRecord parent a with _ | ⟨_ | e⟩
    <;> try rfl
      · exact ih hmem'
      · rw [ih hmem']
        rfl

theorem parseRecords_filterMap (parent : Option Folder) :
    ∀ recs l, parseRecords parent recs = some l →
      l = recs.filterMap fun r => (parseRecord parent r).join := by
  intro recs
  induction recs with
  | nil =>
    intro l h
    simp only [parseRecords, Option.some.injEq] at h
    subst h
    rfl
  | cons r rest ih =>
    intro l h
    unfold parseRecords at h
    rcases hpr : parseRecord parent r with _ | ⟨_ | e⟩ <;> rw [hpr] at h
    · cases h
    · have hj : (parseRecord parent r).join = none := by rw [hpr]; rfl
      simp only [List.filterMap_cons, hj]
      exact ih l h
    · rcases hrec : parseRecords parent rest with _ | l' <;> rw [hrec] at h
      · cases h
      · simp only [Option.map_some', Option.some.injEq] at h
        subst h
        have hj : (parseRecord parent r).join = some e := by rw [hpr]; rfl
        simp only [List.filterMap_cons, hj]
        rw [ih l' hrec]

/-- When `parseRecords` succeeds the produced entities carry the call's
`parent` as back-reference. -/
theorem parseRecords_folder (parent : Option Folder) (recs : List RMApiDocument)
    (l : List Entity) (h : parseRecords parent recs = some l) :
    ∀ E ∈ l, entFolder E = parent :=
  fun E hE => (parseRecords_mem parent recs l h E hE).1

/-! ### Round-trip of path construction and resolution -/

theorem append_dot_pdf (t : String) : t ++ "." ++ "pdf" = t ++ ".pdf" := by
  obtain ⟨d⟩ := t
  show String.mk ((d ++ ['.']) ++ ['p', 'd', 'f']) = String.mk (d ++ ['.', 'p', 'd', 'f'])
  rw [List.append_assoc]
  rfl

theorem ff_folder_roundtrip (docs : List Entity) (hU : UniqueNames docs)
    (hP : NoPdfNames docs) (hL : ∀ E ∈ docs, LinkOk docs E) :
    ∀ F : Folder, Entity.fold F ∈ docs →
      ff_aux docs (Folder.filename F).reverse = some (Entity.fold F) := by
  intro F
  induction F with
  | root i n p r =>
    intro hF
    have hlink := hL _ hF
    simp only [LinkOk, entFolder, Folder.folder] at hlink
    show _find_doc n none docs = _
    exact _find_doc_eq docs _ n none hF
      (show Entity.visible_name (Entity.fold (Folder.root i n p r)) = strip_pdf n by
        rw [strip_of_not_pdf n (hP _ hF)]
        rfl)
      hlink hU
  | child i pf n p r ih =>
    intro hF
    have hlink := hL _ hF
    simp only [LinkOk, entFolder, Folder.folder] at hlink
    obtain ⟨hpid, hpf⟩ := hlink
    have hrev : (Folder.filename (Folder.child i pf n p r)).reverse
        = n :: (Folder.filename pf).reverse := by
      simp [Folder.filename]
    rw [hrev, ff_aux_cons docs n _
      (by
        simp only [ne_eq, List.reverse_eq_nil_iff]
        exact filename_ne_nil pf)]
    rw [ih hpf]
    exact _find_doc_eq docs _ n _ hF
      (show Entity.visible_name (Entity.fold (Folder.child i pf n p r)) = strip_pdf n by
        rw [strip_of_not_pdf n (hP _ hF)]
        rfl)
      hpid hU

theorem ff_entity_roundtrip (docs : List Entity) (hU : UniqueNames docs)
    (hP : NoPdfNames docs) (hL : ∀ E ∈ docs, LinkOk docs E)
    (hExt : ∀ d, Entity.doc d ∈ docs → d.extension = "pdf") :
    ∀ E ∈ docs, ff_aux docs (Entity.filename E).reverse = some E := by
  intro E hE
  cases E with
  | fold F => exact ff_folder_roundtrip docs hU hP hL F hE
  | doc d =>
    have hlink := hL _ hE
    simp only [LinkOk, entFolder] at hlink
    rcases hf : d.folder with _ | pf <;> rw [hf] at hlink
    · have hfn : (Entity.filename (Entity.doc d)).reverse = [d.visible_name] := by
        show (Document.filename d).reverse = _
        unfold Document.filename
        rw [hf]
        rfl
      rw [hfn]
      exact _find_doc_eq docs _ d.visible_name none hE
        (show Entity.visible_name (Entity.doc d) = strip_pdf d.visible_name by
          rw [strip_of_not_pdf d.visible_name (hP _ hE)]
          rfl)
        hlink hU
    · obtain ⟨hpid, hpf⟩ := hlink
      have hext : d.extension = "pdf" := hExt d hE
      have hfn : (Entity.filename (Entity.doc d)).reverse =
          (d.visible_name ++ ".pdf") :: (Folder.filename pf).reverse := by
        show (Document.filename d).reverse = _
        unfold Document.filename
        rw [hf, hext, append_dot_pdf]
        simp
      rw [hfn, ff_aux_cons docs _ _
        (by
          simp only [ne_eq, List.reverse_eq_nil_iff]
          exact filename_ne_nil pf)]
      rw [ff_folder_roundtrip docs hU hP hL pf hpf]
      exact _find_doc_eq docs _ _ _ hE
        (show Entity.visible_name (Entity.doc d) = strip_pdf (d.visible_name ++ ".pdf") by
          rw [strip_append d.visible_name]
          rfl)
        hpid hU

/-! ### What `get_documents` guarantees about its output -/

theorem get_documents_succ (fetch : Option String → List RMApiDocument) (fuel : Nat)
    (fid : Option String) (recurse : Bool) (parent : Option Folder) :
    get_documents fetch (fuel + 1) fid recurse parent =
      match parseRecords parent (fetch fid) with
      | none => none
      | some level =>
        if recurse then
          match get_subs_aux (fun fid2 p => get_documents fetch fuel fid2 recurse p) level with
          | none => none
          | some subs => some (level ++ subs)
        else some level := rfl

theorem get_subs_good (rec : Option String → Option Folder → Option (List Entity))
    (hrec : ∀ G out', Folder.id_ G ≠ "" → rec (some (Folder.id_ G)) (some G) = some out' →
      ∀ E ∈ out', GoodEntity (some G) out' E) :
    ∀ level subs, get_subs_aux rec level = some subs →
      (∀ G, Entity.fold G ∈ level → Folder.id_ G ≠ "") →
      ∀ E ∈ subs,
        Entity.parent_id E = Option.map Folder.id_ (entFolder E) ∧
        (∃ G, entFolder E = some G ∧ (Entity.fold G ∈ level ∨ Entity.fold G ∈ subs)) ∧
        (∀ d, E = Entity.doc d → d.extension = "pdf") := by
  intro level
  induction level with
  | nil =>
    intro subs h _ E hE
    injection h with h
    subst h
    cases hE
  | cons x rest ih =>
    intro subs h hGid E hE
    cases x with
    | doc d =>
      have h' : get_subs_aux rec rest = some subs := h
      obtain ⟨h1, ⟨G, hG, hmem⟩, h3⟩ :=
        ih subs h' (fun G hG => hGid G (List.mem_cons_of_mem _ hG)) E hE
      exact ⟨h1, ⟨G, hG, hmem.imp (List.mem_cons_of_mem _) id⟩, h3⟩
    | fold f =>
      have hfid : Folder.id_ f ≠ "" := hGid f (List.mem_cons_self _ _)
      unfold get_subs_aux at h
      rcases hch : rec (some (Folder.id_ f)) (some f) with _ | children <;> rw [hch] at h
      · cases h
      · rcases hsx : get_subs_aux rec rest with _ | subs' <;> rw [hsx] at h
        · cases h
        · injection h with h
          subst h
          rcases List.mem_append.mp hE with hEc | hEs
          · obtain ⟨h1, h2, h3⟩ := hrec f children hfid hch E hEc
            refine ⟨h1, ?_, h3⟩
            rcases h2 with h2 | ⟨G, hG, hmem⟩
            · exact ⟨f, h2, Or.inl (List.mem_cons_self _ _)⟩
            · exact ⟨G, hG, Or.inr (List.mem_append_left _ hmem)⟩
          · obtain ⟨h1, ⟨G, hG, hmem⟩, h3⟩ :=
              ih subs' hsx (fun G hG => hGid G (List.mem_cons_of_mem _ hG)) E hEs
            refine ⟨h1, ⟨G, hG, ?_⟩, h3⟩
            rcases hmem with hm | hm
            · exact Or.inl (List.mem_cons_of_mem _ hm)
            · exact Or.inr (List.mem_append_right _ hm)

theorem gd_good (fetch : Option String → List RMApiDocument)
    (hroot : ∀ r ∈ fetch none, r.Parent = "")
    (hsub : ∀ f r, r ∈ fetch (some f) → r.Parent = f)
    (hids : ∀ q r, r ∈ fetch q → r.ID ≠ "") :
    ∀ fuel fid parent out, ParentMatch fid parent →
      get_documents fetch fuel fid true parent = some out →
      ∀ E ∈ out, GoodEntity parent out E := by
  intro fuel
  induction fuel with
  | zero =>
    intro fid parent out _ h
    cases h
  | succ fuel ih =>
    intro fid parent out hpm h
    rw [get_documents_succ] at h
    rcases hlev : parseRecords parent (fetch fid) with _ | level <;> rw [hlev] at h
    · cases h
    · simp only [if_true] at h
      rcases hsubs : get_subs_aux (fun fid2 p => get_documents fetch fuel fid2 true p) level
        with _ | subs <;> rw [hsubs] at h
      · cases h
      · injection h with h
        subst h
        have hlevF : ∀ E ∈ level, entFolder E = parent := parseRecords_folder _ _ _ hlev
        have hlevPid : ∀ E ∈ level, Entity.parent_id E = Option.map Folder.id_ parent := by
          intro E hE
          obtain ⟨-, -, r, hr, hpid, -⟩ := parseRecords_mem _ _ _ hlev E hE
          rcases parent with _ | F
          · have hfid : fid = none := hpm
            subst hfid
            rw [hpid, if_pos (hroot r hr)]
            rfl
          · obtain ⟨hfid, hne⟩ := hpm
            subst hfid
            have hpar : r.Parent = Folder.id_ F := hsub _ r hr
            rw [hpid, if_neg (by rw [hpar]; exact hne), hpar]
            rfl
        have hlevId : ∀ G, Entity.fold G ∈ level → Folder.id_ G ≠ "" := by
          intro G hG
          obtain ⟨-, -, r, hr, -, hid⟩ := parseRecords_mem _ _ _ hlev _ hG
          have : Entity.id_ (Entity.fold G) = r.ID := hid
          rw [show Entity.id_ (Entity.fold G) = Folder.id_ G from rfl] at this
          rw [this]
          exact hids fid r hr
        intro E hE
        rcases List.mem_append.mp hE with hEl | hEs
        · refine ⟨?_, Or.inl (hlevF E hEl), ?_⟩
          · rw [hlevPid E hEl, hlevF E hEl]
          · exact fun d hd => (parseRecords_mem _ _ _ hlev E hEl).2.1 d hd
        · have hrec : ∀ G out', Folder.id_ G ≠ "" →
              get_documents fetch fuel (some (Folder.id_ G)) true (some G) = some out' →
              ∀ E' ∈ out', GoodEntity (some G) out' E' := by
            intro G out' hGne hG E' hE'
            exact ih (some (Folder.id_ G)) (some G) out' ⟨rfl, hGne⟩ hG E' hE'
          obtain ⟨h1, ⟨G, hG, hmem⟩, h3⟩ :=
            get_subs_good _ hrec level subs hsubs hlevId E hEs
          refine ⟨h1, Or.inr ⟨G, hG, ?_⟩, h3⟩
          rcases hmem with hm | hm
          · exact List.mem_append_left _ hm
          · exact List.mem_append_right _ hm

theorem goodOut_linkOk (out : List Entity)
    (hG : ∀ E ∈ out, GoodEntity none out E) : ∀ E ∈ out, LinkOk out E := by
  intro E hE
  obtain ⟨h1, h2, -⟩ := hG E hE
  unfold LinkOk
  rcases hf : entFolder E with _ | G <;> rw [hf] at h1 h2
  · exact h1
  · refine ⟨by simpa using h1, ?_⟩
    rcases h2 with h2 | ⟨G', hG', hmem⟩
    · cases h2
    · injection hG' with hG'
      subst hG'
      exact hmem

/-! ### Ordering of the recursive listing (ancestors precede descendants) -/

theorem ancestors_eq (f : Folder) :
    Folder.ancestors f = f :: chainFolders (Folder.folder f) := by
  cases f <;> rfl

theorem chainClosed_append : ∀ a pre b, ChainClosed pre a → ChainClosed (pre ++ a) b →
    ChainClosed pre (a ++ b) := by
  intro a
  induction a with
  | nil =>
    intro pre b _ hb
    simpa using hb
  | cons E rest ih =>
    intro pre b hE hb
    obtain ⟨h1, h2⟩ := hE
    refine ⟨h1, ?_⟩
    apply ih (pre ++ [E]) b h2
    have : pre ++ E :: rest = (pre ++ [E]) ++ rest := by simp
    rwa [this] at hb

theorem chainClosed_of_forall : ∀ l pre,
    (∀ E ∈ l, ∀ F ∈ chainFolders (entFolder E), Entity.fold F ∈ pre) →
    ChainClosed pre l := by
  intro l
  induction l with
  | nil => intro pre _; trivial
  | cons E rest ih =>
    intro pre h
    refine ⟨h E (List.mem_cons_self _ _), ?_⟩
    apply ih
    intro E' hE' F hF
    exact List.mem_append_left _ (h E' (List.mem_cons_of_mem _ hE') F hF)

theorem chainClosed_split : ∀ l₁ pre l E l₂, ChainClosed pre l → l = l₁ ++ E :: l₂ →
    ∀ F ∈ chainFolders (entFolder E), Entity.fold F ∈ pre ++ l₁ := by
  intro l₁
  induction l₁ with
  | nil =>
    intro pre l E l₂ hC hl F hF
    subst hl
    obtain ⟨h1, -⟩ := hC
    simpa using h1 F hF
  | cons x l₁' ih =>
    intro pre l E l₂ hC hl F hF
    subst hl
    obtain ⟨-, h2⟩ := hC
    have := ih (pre ++ [x]) _ E l₂ h2 rfl F hF
    rw [List.append_assoc] at this
    exact this

theorem get_subs_cc (rec : Option String → Option Folder → Option (List Entity))
    (hrec : ∀ G pre' out', (∀ F ∈ chainFolders (some G), Entity.fold F ∈ pre') →
      rec (some (Folder.id_ G)) (some G) = some out' → ChainClosed pre' out') :
    ∀ level subs pre, get_subs_aux rec level = some subs →
      (∀ G, Entity.fold G ∈ level → ∀ F ∈ chainFolders (some G), Entity.fold F ∈ pre) →
      ChainClosed pre subs := by
  intro level
  induction level with
  | nil =>
    intro subs pre h _
    injection h with h
    subst h
    trivial
  | cons x rest ih =>
    intro subs pre h hG
    cases x with
    | doc d => exact ih subs pre h fun G hG' => hG G (List.mem_cons_of_mem _ hG')
    | fold f =>
      unfold get_subs_aux at h
      rcases hch : rec (some (Folder.id_ f)) (some f) with _ | children <;> rw [hch] at h
      · cases h
      · rcases hsx : get_subs_aux rec rest with _ | subs' <;> rw [hsx] at h
        · cases h
        · injection h with h
          subst h
          apply chainClosed_append children pre subs'
          · exact hrec f pre children (hG f (List.mem_cons_self _ _)) hch
          · apply ih subs' (pre ++ children) hsx
            intro G hG' F hF
            exact List.mem_append_left _ (hG G (List.mem_cons_of_mem _ hG') F hF)

theorem gd_cc (fetch : Option String → List RMApiDocument) :
    ∀ fuel fid parent pre out,
      (∀ F ∈ chainFolders parent, Entity.fold F ∈ pre) →
      get_documents fetch fuel fid true parent = some out →
      ChainClosed pre out := by
  intro fuel
  induction fuel with
  | zero =>
    intro _ _ _ _ _ h
    cases h
  | succ fuel ih =>
    intro fid parent pre out hpre h
    rw [get_documents_succ] at h
    rcases hlev : parseRecords parent (fetch fid) with _ | level <;> rw [hlev] at h
    · cases h
    · simp only [if_true] at h
      rcases hsubs : get_subs_aux (fun fid2 p => get_documents fetch fuel fid2 true p) level
        with _ | subs <;> rw [hsubs] at h
      · cases h
      · injection h with h
        subst h
        apply chainClosed_append level pre subs
        · apply chainClosed_of_forall
          intro E hE F hF
          rw [parseRecords_folder _ _ _ hlev E hE] at hF
          exact hpre F hF
        · apply get_subs_cc _ ?_ level subs (pre ++ level) hsubs ?_
          · intro G pre' out' hpre' hG
            exact ih (some (Folder.id_ G)) (some G) pre' out' hpre' hG
          · intro G hGl F hF
            have hF2 : F ∈ G :: chainFolders (Folder.folder G) := by
              rw [← ancestors_eq]
              exact hF
            rcases List.mem_cons.mp hF2 with rfl | hF'
            · exact List.mem_append_right _ hGl
            · have hfold : Folder.folder G = parent :=
                parseRecords_folder _ _ _ hlev _ hGl
              rw [hfold] at hF'
              exact List.mem_append_left _ (hpre F hF')

/-- Splitting the output of `get_subs_aux` at the children block of a folder
of the level: the child call's whole output is one contiguous block. -/
theorem get_subs_aux_fold_split (rec : Option String → Option Folder → Option (List Entity)) :
    ∀ lev subs, get_subs_aux rec lev = some subs →
      ∀ f, Entity.fold f ∈ lev → ∃ children pre post,
        rec (some (Folder.id_ f)) (some f) = some children ∧
        subs = pre ++ (children ++ post) := by
  intro lev
  induction lev with
  | nil =>
    intro subs h f hf
    cases hf
  | cons x rest ih =>
    intro subs h f hf
    cases x with
    | doc d =>
      have h' : get_subs_aux rec rest = some subs := h
      rcases List.mem_cons.mp hf with hfx | hf'
      · simp at hfx
      · exact ih subs h' f hf'
    | fold g =>
      unfold get_subs_aux at h
      rcases hch : rec (some (Folder.id_ g)) (some g) with _ | children <;> rw [hch] at h
      · cases h
      · rcases hsx : get_subs_aux rec rest with _ | subs' <;> rw [hsx] at h
        · cases h
        · injection h with h
          subst h
          rcases List.mem_cons.mp hf with hfx | hf'
          · injection hfx with hfx
            subst hfx
            exact ⟨children, [], subs', hch, rfl⟩
          · obtain ⟨children', pre, post, hrec, hse⟩ := ih subs' hsx f hf'
            exact ⟨children', children ++ pre, post, hrec, by rw [hse]; simp⟩

/-- Every entity of `get_subs_aux`'s output lies in the child output of some
folder of the level, and that child output is one contiguous block. -/
theorem get_subs_aux_mem_split (rec : Option String → Option Folder → Option (List Entity)) :
    ∀ lev subs, get_subs_aux rec lev = some subs →
      ∀ E ∈ subs, ∃ f children pre post,
        Entity.fold f ∈ lev ∧ rec (some (Folder.id_ f)) (some f) = some children ∧
        E ∈ children ∧ subs = pre ++ (children ++ post) := by
  intro lev
  induction lev with
  | nil =>
    intro subs h E hE
    injection h with h
    subst h
    cases hE
  | cons x rest ih =>
    intro subs h E hE
    cases x with
    | doc d =>
      have h' : get_subs_aux rec rest = some subs := h
      obtain ⟨f, children, pre, post, hrest, hrec, hEc, hse⟩ := ih subs h' E hE
      exact ⟨f, children, pre, post, List.mem_cons_of_mem _ hrest, hrec, hEc, hse⟩
    | fold g =>
      unfold get_subs_aux at h
      rcases hch : rec (some (Folder.id_ g)) (some g) with _ | children <;> rw [hch] at h
      · cases h
      · rcases hsx : get_subs_aux rec rest with _ | subs' <;> rw [hsx] at h
        · cases h
        · injection h with h
          subst h
          rcases List.mem_append.mp hE with hEc | hEs
          · exact ⟨g, children, [], subs', List.mem_cons_self _ _, hch, hEc, rfl⟩
          · obtain ⟨f, children', pre, post, hrest, hrec, hEc, hse⟩ := ih subs' hsx E hEs
            exact ⟨f, children', children ++ pre, post, List.mem_cons_of_mem _ hrest,
              hrec, hEc, by rw [hse]; simp⟩

/-- Every folder of a recursive listing has its fetched child level — parsed
in raw record order — occurring as one contiguous block of the listing. -/
theorem gd_levels (fetch : Option String → List RMApiDocument) :
    ∀ fuel fid parent out,
      get_documents fetch fuel fid true parent = some out →
      ∀ G, Entity.fold G ∈ out → ∃ l₁ l₂,
        out = l₁ ++ (((fetch (some (Folder.id_ G))).filterMap
          fun r => (parseRecord (some G) r).join) ++ l₂) := by
  intro fuel
  induction fuel with
  | zero =>
    intro fid parent out h
    cases h
  | succ fuel ih =>
    intro fid parent out h G hG
    rw [get_documents_succ] at h
    rcases hlev : parseRecords parent (fetch fid) with _ | level <;> rw [hlev] at h
    · cases h
    · simp only [if_true] at h
      rcases hsubs : get_subs_aux (fun fid2 p => get_documents fetch fuel fid2 true p) level
        with _ | subs <;> rw [hsubs] at h
      · cases h
      · injection h with h
        subst h
        rcases List.mem_append.mp hG with hGlev | hGsub
        · obtain ⟨children, pre, post, hrec0, hse⟩ :=
            get_subs_aux_fold_split _ level subs hsubs G hGlev
          have hrec : get_documents fetch fuel (some (Folder.id_ G)) true (some G)
              = some children := hrec0
          rcases fuel with _ | fuel'
          · cases hrec
          · rw [get_documents_succ] at hrec
            rcases hlev2 : parseRecords (some G) (fetch (some (Folder.id_ G)))
              with _ | levG <;> rw [hlev2] at hrec
            · cases hrec
            · simp only [if_true] at hrec
              rcases hs2 : get_subs_aux
                  (fun fid2 p => get_documents fetch fuel' fid2 true p) levG
                with _ | subsG <;> rw [hs2] at hrec
              · cases hrec
              · injection hrec with hrec
                have hfm := parseRecords_filterMap (some G) _ levG hlev2
                refine ⟨level ++ pre, subsG ++ post, ?_⟩
                rw [hse, ← hrec, ← hfm]
                simp [List.append_assoc]
        · obtain ⟨f, children, pre, post, hflev, hrec0, hGch, hse⟩ :=
            get_subs_aux_mem_split _ level subs hsubs (Entity.fold G) hGsub
          have hrec : get_documents fetch fuel (some (Folder.id_ f)) true (some f)
              = some children := hrec0
          obtain ⟨l₁, l₂, hch⟩ := ih (some (Folder.id_ f)) (some f) children hrec G hGch
          refine ⟨level ++ (pre ++ l₁), l₂ ++ post, ?_⟩
          rw [hse, hch]
          simp [List.append_assoc]

/-! ### Resolution of the parent chain inside `mkdir` -/

theorem resolvChain_of_prefixFolders (docs : List Entity) :
    ∀ r, PrefixFolders docs r.reverse → ResolvChain docs r := by
  intro r
  induction r with
  | nil => intro _; trivial
  | cons n rest ih =>
    intro h
    rcases hrest : rest with _ | ⟨r₁, r₂⟩
    · trivial
    · subst hrest
      constructor
      · obtain ⟨G, hG⟩ := h ((r₁ :: r₂).reverse) [n]
          (by rw [List.reverse_cons]) (by simp) (by simp)
        refine ⟨G, ?_⟩
        have heq : find_file ((r₁ :: r₂).reverse) docs = ff_aux docs (r₁ :: r₂) := by
          unfold find_file
          rw [List.reverse_reverse]
        rwa [heq] at hG
      · apply ih
        intro l₁ l₂ hl h1 h2
        exact h l₁ (l₂ ++ [n])
          (by rw [List.reverse_cons, hl, List.append_assoc]) h1 (by simp)

theorem mkdir_aux_chain (docs : List Entity) :
    ∀ r, ResolvChain docs r →
      ∀ eo par, mkdir_aux docs eo par r = mkdirFinal r.reverse eo (ff_aux docs r) := by
  intro r
  induction r with
  | nil =>
    intro _ eo par
    rfl
  | cons n rest ih =>
    intro hrc eo par
    rcases hrest : rest with _ | ⟨r₁, r₂⟩
    · rfl
    · subst hrest
      obtain ⟨⟨G, hG⟩, hchain⟩ := hrc
      have hff : ff_aux docs (n :: r₁ :: r₂) =
          _find_doc n (some (Folder.id_ G)) docs := by
        rw [ff_aux_cons docs n (r₁ :: r₂) (by simp), hG]
        rfl
      rw [hff]
      cases par
      · show (match (match ff_aux docs (r₁ :: r₂) with
            | none => (Except.error "parent does not exist" : Except String String)
            | some p => Except.ok (Entity.id_ p)) with
          | Except.error e => Except.error e
          | Except.ok pid =>
            mkdirFinal ((n :: r₁ :: r₂).reverse) eo (_find_doc n (some pid) docs)) = _
        rw [hG]
        rfl
      · show (match (match mkdir_aux docs true true (r₁ :: r₂) with
            | Except.error e => (Except.error e : Except String String)
            | Except.ok F => Except.ok (Folder.id_ F)) with
          | Except.error e => Except.error e
          | Except.ok pid =>
            mkdirFinal ((n :: r₁ :: r₂).reverse) eo (_find_doc n (some pid) docs)) = _
        rw [ih hchain true true, hG]
        rfl

theorem mkdir_resolved (docs : List Entity) (fn : RPath) (hPR : PrefixFolders docs fn)
    (eo par : Bool) :
    mkdir fn eo par docs = mkdirFinal fn eo (find_file fn docs) := by
  unfold mkdir find_file
  rw [mkdir_aux_chain docs fn.reverse
    (resolvChain_of_prefixFolders docs fn.reverse (by rwa [List.reverse_reverse])) eo par]
  rw [List.reverse_reverse]

/-! ### Small helpers for concrete instantiations -/

theorem prefixFolders_single (docs : List Entity) (x : String) :
    PrefixFolders docs [x] := by
  intro l₁ l₂ hl h1 h2
  exfalso
  have hlen := congrArg List.length hl
  rw [List.length_append] at hlen
  have e1 : 0 < l₁.length := List.length_pos.mpr h1
  have e2 : 0 < l₂.length := List.length_pos.mpr h2
  simp at hlen
  omega

theorem prefixFolders_pair (docs : List Entity) (x y : String) (G : Folder)
    (h : find_file [x] docs = some (Entity.fold G)) :
    PrefixFolders docs [x, y] := by
  intro l₁ l₂ hl h1 h2
  rcases l₁ with _ | ⟨a, _ | ⟨b, t⟩⟩
  · exact absurd rfl h1
  · injection hl with hax htail
    subst hax
    exact ⟨G, h⟩
  · injection hl with hax htail
    injection htail with hby htail2
    exact absurd (List.append_eq_nil.mp htail2.symm).2 h2

theorem reverse_middle (p q : List String) (x : String) :
    (p ++ x :: q).reverse = q.reverse ++ x :: p.reverse := by
  rw [show p ++ x :: q = p ++ [x] ++ q by simp, List.reverse_append,
    List.reverse_append]
  simp

theorem ff_aux_seg (docs : List Entity) (x y : String) (h : strip_pdf x = strip_pdf y) :
    ∀ r₂ r₁, ff_aux docs (r₂ ++ x :: r₁) = ff_aux docs (r₂ ++ y :: r₁) := by
  intro r₂
  induction r₂ with
  | nil =>
    intro r₁
    rcases r₁ with _ | ⟨a, t⟩
    · exact _find_doc_congr x y none docs h
    · rw [show ([] : List String) ++ x :: a :: t = x :: a :: t from rfl,
          show ([] : List String) ++ y :: a :: t = y :: a :: t from rfl,
          ff_aux_cons docs x (a :: t) (by simp), ff_aux_cons docs y (a :: t) (by simp)]
      rcases ff_aux docs (a :: t) with _ | parent
      · rfl
      · exact _find_doc_congr x y _ docs h
  | cons z r₂' ih =>
    intro r₁
    rw [show (z :: r₂') ++ x :: r₁ = z :: (r₂' ++ x :: r₁) from rfl,
        show (z :: r₂') ++ y :: r₁ = z :: (r₂' ++ y :: r₁) from rfl,
        ff_aux_cons docs z _ (by simp), ff_aux_cons docs z _ (by simp),
        ih r₁]

/-- An error raised while `mkdir(parents=True)` resolves the parent chain
propagates unchanged through the enclosing calls. -/
theorem mkdir_aux_err_propagate (docs : List Entity) (e : String) :
    ∀ r n, mkdir_aux docs true true r = Except.error e → r ≠ [] →
      ∀ eo, mkdir_aux docs eo true (n :: r) = Except.error e := by
  intro r n h hr eo
  rcases r with _ | ⟨r₁, r₂⟩
  · exact absurd rfl hr
  · show (match (match mkdir_aux docs true true (r₁ :: r₂) with
        | Except.error e' => (Except.error e' : Except String String)
        | Except.ok F => Except.ok (Folder.id_ F)) with
      | Except.error e' => Except.error e'
      | Except.ok pid =>
        mkdirFinal ((n :: r₁ :: r₂).reverse) eo (_find_doc n (some pid) docs)) = _
    rw [h]

/-! ### The claims -/

/-- Claim C1, counterexample: the round-trip fails as literally stated.  A
root folder whose display name is `X.pdf` is produced by
`get_documents(recurse=True)`, but `find_file` on its computed `filename`
strips the `.pdf` suffix and finds nothing. -/
theorem C1_counterexample :
    get_documents fetchXpdf 2 none true none = some [Entity.fold folderXpdf] ∧
    find_file (Entity.filename (Entity.fold folderXpdf)) [Entity.fold folderXpdf]
      = none := by
  decide

/-- Claim C1 (amended): round-trip of path construction and resolution.  For
a coherent device listing (children records carry the queried folder's id as
`Parent`, root records carry `Parent = ""`, ids are non-empty) in which no
two entities share display name and parent id and no display name ends in
`.pdf`, every entity in the flat list produced by
`get_documents(recurse=True)` from the root is returned by `find_file`
applied to its own `filename`. -/
theorem C1_roundtrip (fetch : Option String → List RMApiDocument) (fuel : Nat)
    (out : List Entity)
    (hroot : ∀ r ∈ fetch none, r.Parent = "")
    (hsub : ∀ f r, r ∈ fetch (some f) → r.Parent = f)
    (hids : ∀ q r, r ∈ fetch q → r.ID ≠ "")
    (hgd : get_documents fetch fuel none true none = some out)
    (hU : UniqueNames out) (hP : NoPdfNames out) :
    ∀ E ∈ out, find_file (Entity.filename E) out = some E := by
  have hGood : ∀ E ∈ out, GoodEntity none out E :=
    gd_good fetch hroot hsub hids fuel none none out rfl hgd
  have hL := goodOut_linkOk out hGood
  have hExt : ∀ d, Entity.doc d ∈ out → d.extension = "pdf" :=
    fun d hd => (hGood _ hd).2.2 d rfl
  intro E hE
  exact ff_entity_roundtrip out hU hP hL hExt E hE

/-- Witness for C1 on a concrete two-level listing. -/
theorem C1_witness :
    get_documents sampleFetch 3 none true none = some sampleOut ∧
    Entity.doc documentB ∈ sampleOut ∧
    find_file (Entity.filename (Entity.doc documentB)) sampleOut
      = some (Entity.doc documentB) := by
  refine ⟨by decide, by decide, ?_⟩
  apply C1_roundtrip sampleFetch 3 sampleOut ?_ ?_ ?_ (by decide)
    (by unfold UniqueNames; decide) (by unfold NoPdfNames; decide)
    (Entity.doc documentB) (by decide)
  · intro r hr
    have h : r = rawFolderA ∨ r = rawTrash := by
      simpa [sampleFetch] using hr
    rcases h with rfl | rfl <;> rfl
  · intro f r hr
    by_cases hf : f = "1"
    · subst hf
      have h : r = rawDocB := by simpa [sampleFetch] using hr
      subst h
      rfl
    · simp [sampleFetch, hf] at hr
  · intro q r hr
    rcases q with _ | f
    · have h : r = rawFolderA ∨ r = rawTrash := by simpa [sampleFetch] using hr
      rcases h with rfl | rfl <;> decide
    · by_cases hf : f = "1"
      · subst hf
        have h : r = rawDocB := by simpa [sampleFetch] using hr
        subst h
        decide
      · simp [sampleFetch, hf] at hr

/-- Claim C2, counterexample: when no Folder of the target name exists but a
*Document* of that name does, `mkdir` raises the name-collision error, not
the "not implemented" one the claim predicts. -/
theorem C2_counterexample :
    (∀ F : Folder, Entity.fold F ∉ [Entity.doc documentA]) ∧
    mkdir ["a"] true false [Entity.doc documentA]
      = Except.error (docExistsMsg ["a"]) ∧
    docExistsMsg ["a"] ≠ notImplementedMsg ["a"] :=
  ⟨fun F hF => by simp at hF, rfl, by decide⟩

/-- Claim C2 (amended): if every proper non-empty ancestor prefix of `fn`
resolves to an existing Folder and the full path resolves to nothing (no
Folder and also no Document of that name under the resolved parent), then
`mkdir` raises the fatal "not implemented" error for both `parents=True` and
`parents=False` and any `exists_ok`; the remote-creation primitive itself
always fails with that error; and with `parents=True` any deeper path below
`fn` fails with the error naming `fn`, the point where it runs out of
existing ancestors. -/
theorem C2_mkdir_not_implemented (docs : List Entity) (fn : RPath)
    (hPR : PrefixFolders docs fn) (hnone : find_file fn docs = none) :
    (∀ eo par, mkdir fn eo par docs = Except.error (notImplementedMsg fn)) ∧
    (∀ p, raw_mkdir p = Except.error (notImplementedMsg p)) ∧
    (∀ suf : List String, suf ≠ [] → fn ≠ [] → ∀ eo,
      mkdir (fn ++ suf) eo true docs = Except.error (notImplementedMsg fn)) := by
  have hbase : ∀ eo par, mkdir fn eo par docs = Except.error (notImplementedMsg fn) := by
    intro eo par
    rw [mkdir_resolved docs fn hPR eo par, hnone]
    cases eo <;> rfl
  refine ⟨hbase, fun p => rfl, ?_⟩
  intro suf hsuf hfn eo
  have hstep : ∀ suf' : List String,
      mkdir_aux docs true true ((fn ++ suf').reverse)
        = Except.error (notImplementedMsg fn) ∧ fn ++ suf' ≠ [] := by
    intro suf'
    induction suf' using List.reverseRecOn with
    | nil =>
      constructor
      · simp only [List.append_nil]
        exact hbase true true
      · simpa using hfn
    | append_singleton s t ih =>
      constructor
      · have hrev : (fn ++ (s ++ [t])).reverse = t :: (fn ++ s).reverse := by
          simp
        rw [hrev]
        exact mkdir_aux_err_propagate docs _ _ t ih.1
          (fun hnil => ih.2 (List.reverse_eq_nil_iff.mp hnil)) true
      · simp [hfn]
  rcases suf.eq_nil_or_concat with rfl | ⟨suf', t, rfl⟩
  · exact absurd rfl hsuf
  · show mkdir_aux docs eo true ((fn ++ suf'.concat t).reverse) = _
    rw [List.concat_eq_append]
    have hrev : (fn ++ (suf' ++ [t])).reverse = t :: (fn ++ suf').reverse := by
      simp
    rw [hrev]
    exact mkdir_aux_err_propagate docs _ _ t (hstep suf').1
      (fun hnil => (hstep suf').2 (List.reverse_eq_nil_iff.mp hnil)) eo

/-- Witness for C2 on the empty snapshot. -/
theorem C2_witness :
    find_file ["new"] [] = none ∧
    mkdir ["new"] true true [] = Except.error (notImplementedMsg ["new"]) ∧
    mkdir ["new"] false false [] = Except.error (notImplementedMsg ["new"]) ∧
    mkdir ["new", "deep"] true true [] = Except.error (notImplementedMsg ["new"]) := by
  refine ⟨by decide, ?_, ?_, ?_⟩
  · exact (C2_mkdir_not_implemented [] ["new"] (prefixFolders_single [] "new")
      (by decide)).1 true true
  · exact (C2_mkdir_not_implemented [] ["new"] (prefixFolders_single [] "new")
      (by decide)).1 false false
  · exact (C2_mkdir_not_implemented [] ["new"] (prefixFolders_single [] "new")
      (by decide)).2.2 ["deep"] (by simp) (by simp) true

/-- Claim C3, counterexample: a root Document's computed path does not carry
the `.extension` suffix — the code returns bare `Path(visible_name)` when
`folder is None`. -/
theorem C3_counterexample :
    documentA.folder = none ∧
    Document.filename documentA = ["a"] ∧
    Document.filename documentA
      ≠ [documentA.visible_name ++ "." ++ documentA.extension] := by
  decide

/-- Claim C3 (amended): a Document with a parent Folder has full path equal to
the parent's path extended with `<display name>.<extension>`; a root Document
(no parent Folder) has path equal to its bare display name, with no
extension suffix appended. -/
theorem C3_document_filename (d : Document) :
    (∀ f, d.folder = some f →
      Document.filename d
        = Folder.filename f ++ [d.visible_name ++ "." ++ d.extension]) ∧
    (d.folder = none → Document.filename d = [d.visible_name]) := by
  constructor
  · intro f hf
    unfold Document.filename
    rw [hf]
  · intro hf
    unfold Document.filename
    rw [hf]

/-- Witness for C3 at a nested and a root document. -/
theorem C3_witness :
    documentB.folder = some folderA ∧
    Document.filename documentB
      = Folder.filename folderA ++ [documentB.visible_name ++ "." ++ documentB.extension] ∧
    documentA.folder = none ∧
    Document.filename documentA = [documentA.visible_name] := by
  refine ⟨by decide, ?_, by decide, ?_⟩
  · exact (C3_document_filename documentB).1 folderA (by decide)
  · exact (C3_document_filename documentA).2 (by decide)

/-- Claim C4: in the flat list of a recursive listing from the root, every
entity is preceded by all the folders of its back-reference chain (parents
precede descendants), the listing starts with the order-preserving parse of
the root's raw record list, and every folder's fetched child level occurs in
the listing as one contiguous block equal to the order-preserving parse of
its raw record list — so the siblings of every fetched level keep the raw
record order, with each level's children appended after the level's
siblings. -/
theorem C4_order (fetch : Option String → List RMApiDocument) (fuel : Nat)
    (out : List Entity)
    (hgd : get_documents fetch fuel none true none = some out) :
    (∀ l₁ E l₂, out = l₁ ++ E :: l₂ →
      ∀ F ∈ chainFolders (entFolder E), Entity.fold F ∈ l₁) ∧
    (∃ subs,
      out = ((fetch none).filterMap fun r => (parseRecord none r).join) ++ subs) ∧
    (∀ G, Entity.fold G ∈ out → ∃ l₁ l₂,
      out = l₁ ++ (((fetch (some (Folder.id_ G))).filterMap
        fun r => (parseRecord (some G) r).join) ++ l₂)) := by
  refine ⟨?_, ?_, gd_levels fetch fuel none none out hgd⟩
  · intro l₁ E l₂ hl F hF
    have hcc : ChainClosed [] out :=
      gd_cc fetch fuel none none [] out
        (by
          intro F hF
          simp only [chainFolders] at hF
          cases hF)
        hgd
    have := chainClosed_split l₁ [] out E l₂ hcc hl F hF
    simpa using this
  · rcases fuel with _ | fuel
    · cases hgd
    · rw [get_documents_succ] at hgd
      rcases hlev : parseRecords none (fetch none) with _ | level <;> rw [hlev] at hgd
      · cases hgd
      · simp only [if_true] at hgd
        rcases hsubs : get_subs_aux
            (fun fid2 p => get_documents fetch fuel fid2 true p) level
          with _ | subs <;> rw [hsubs] at hgd
        · cases hgd
        · injection hgd with hgd
          refine ⟨subs, ?_⟩
          rw [← hgd, parseRecords_filterMap none _ level hlev]

/-- Witness for C4 on the concrete two-level listing. -/
theorem C4_witness :
    (∀ l₁ E l₂, sampleOut = l₁ ++ E :: l₂ →
      ∀ F ∈ chainFolders (entFolder E), Entity.fold F ∈ l₁) ∧
    (∃ subs, sampleOut
      = ((sampleFetch none).filterMap fun r => (parseRecord none r).join) ++ subs) ∧
    (∀ G, Entity.fold G ∈ sampleOut → ∃ l₁ l₂,
      sampleOut = l₁ ++ (((sampleFetch (some (Folder.id_ G))).filterMap
        fun r => (parseRecord (some G) r).join) ++ l₂)) :=
  C4_order sampleFetch 3 sampleOut (by decide)

/-- Claim C5: with `recurse=False`, the returned list has as many entities as
the fetched record list has records of type `DocumentType` or
`CollectionType` — records of any other type are skipped and do not make the
call fail. -/
theorem C5_level_length (fetch : Option String → List RMApiDocument) (fuel : Nat)
    (fid : Option String) (parent : Option Folder) :
    (∀ l, get_documents fetch (fuel + 1) fid false parent = some l →
      l.length = ((fetch fid).filter fun r =>
        r.«Type» == "DocumentType" || r.«Type» == "CollectionType").length) ∧
    ((∀ r ∈ fetch fid, r.«Type» = "DocumentType" →
        r.sizeInBytes.isSome ∧ r.pageCount.isSome) →
      ∃ l, get_documents fetch (fuel + 1) fid false parent = some l) := by
  constructor
  · intro l h
    rw [get_documents_succ] at h
    rcases hlev : parseRecords parent (fetch fid) with _ | level <;> rw [hlev] at h
    · cases h
    · injection h with h
      subst h
      exact parseRecords_length parent _ level hlev
  · intro hOK
    obtain ⟨l, hl⟩ := parseRecords_total parent (fetch fid) hOK
    refine ⟨l, ?_⟩
    rw [get_documents_succ, hl]
    rfl

/-- Witness for C5: the root level holds one folder, one document-less trash
record; the parsed level has length 1, the filtered record count. -/
theorem C5_witness :
    ∃ l, get_documents sampleFetch 1 none false none = some l ∧
      l.length = ((sampleFetch none).filter fun r =>
        r.«Type» == "DocumentType" || r.«Type» == "CollectionType").length := by
  obtain ⟨l, hl⟩ := (C5_level_length sampleFetch 0 none none).2 (by decide)
  exact ⟨l, hl, (C5_level_length sampleFetch 0 none none).1 l hl⟩

/-- Claim C6: a `DocumentType` record with size and page count present parses
to a Document with the fixed extension `pdf` whose `parent_id` is `none`
exactly when the raw `Parent` field is the empty string; a `DocumentType`
record missing either field makes the whole parse fail (fatal error
surfaced to the caller). -/
theorem C6_document_parsing (parent : Option Folder) (r : RMApiDocument)
    (hT : r.«Type» = "DocumentType") :
    (∀ sz pc, r.sizeInBytes = some sz → r.pageCount = some pc →
      ∃ d, parseRecord parent r = some (some (Entity.doc d)) ∧
        d.extension = "pdf" ∧ (d.parent_id = none ↔ r.Parent = "")) ∧
    ((r.sizeInBytes = none ∨ r.pageCount = none) →
      ∀ recs, r ∈ recs → parseRecords parent recs = none) := by
  constructor
  · intro sz pc hs hp
    refine ⟨_, parseRecord_doc parent r sz pc hT hs hp, rfl, ?_⟩
    by_cases hpar : r.Parent = ""
    · simp [hpar]
    · simp [hpar]
  · intro hmiss recs hr
    exact parseRecords_fail parent r (parseRecord_doc_missing parent r hT hmiss) recs hr

/-- Witness for C6 on a well-formed and a field-missing record. -/
theorem C6_witness :
    (∃ d, parseRecord none rawDocB = some (some (Entity.doc d)) ∧
      d.extension = "pdf" ∧ (d.parent_id = none ↔ rawDocB.Parent = "")) ∧
    parseRecords none [rawBadDoc] = none := by
  constructor
  · exact (C6_document_parsing none rawDocB (by decide)).1 10 2 (by decide) (by decide)
  · exact (C6_document_parsing none rawBadDoc (by decide)).2 (Or.inl (by decide))
      [rawBadDoc] (by decide)

/-- Claim C7, counterexample: `["a","B"]` resolves to the Folder `B` (whose
recorded parent is the *document* `a`, which `find_file` accepts as an
intermediate), yet `mkdir` with `exists_ok=True, parents=True` fails on the
intermediate document instead of returning `B`. -/
theorem C7_counterexample :
    find_file ["a", "B"] docsUnderDoc = some (Entity.fold folderUnderDoc) ∧
    mkdir ["a", "B"] true true docsUnderDoc = Except.error (docExistsMsg ["a"]) ∧
    Except.error (docExistsMsg ["a"]) ≠ (Except.ok folderUnderDoc : Except String Folder) :=
  ⟨by decide, rfl, by simp⟩

/-- Claim C7 (amended): if every proper non-empty ancestor prefix of `fn`
resolves to a Folder and `fn` itself resolves to the Folder `F`, then
`mkdir(fn, exists_ok=True, parents, docs)` returns exactly `F` for both
values of `parents`.  No remote creation happens: the remote-creation
primitive never returns successfully, and the snapshot is a pure value that
`mkdir` cannot mutate. -/
theorem C7_mkdir_exists_ok (docs : List Entity) (fn : RPath) (F : Folder)
    (hPR : PrefixFolders docs fn)
    (hfound : find_file fn docs = some (Entity.fold F)) :
    (∀ par, mkdir fn true par docs = Except.ok F) ∧
    (∀ p F', raw_mkdir p ≠ Except.ok F') := by
  constructor
  · intro par
    rw [mkdir_resolved docs fn hPR true par, hfound]
    rfl
  · intro p F' h
    simp [raw_mkdir] at h

/-- Witness for C7 on the concrete folder chain `A/sub`. -/
theorem C7_witness :
    find_file ["A", "sub"] docsFolders = some (Entity.fold folderSub) ∧
    mkdir ["A", "sub"] true true docsFolders = Except.ok folderSub ∧
    mkdir ["A", "sub"] true false docsFolders = Except.ok folderSub := by
  have hPR := prefixFolders_pair docsFolders "A" "sub" folderA (by decide)
  have h := C7_mkdir_exists_ok docsFolders ["A", "sub"] folderSub hPR (by decide)
  exact ⟨by decide, h.1 true, h.1 false⟩

/-- Claim C8: resolution ignores a trailing `.pdf` on the final name:
`find_file "a.pdf"` and `find_file "a"` coincide whenever a Document with
display name `a` and extension `pdf` is in the snapshot (the stripped search
key is `a` in both lookups). -/
theorem C8_pdf_suffix_ignored (docs : List Entity)
    (_hdoc : ∃ d, Entity.doc d ∈ docs ∧ d.visible_name = "a" ∧ d.extension = "pdf") :
    find_file ["a.pdf"] docs = find_file ["a"] docs := by
  show _find_doc "a.pdf" none docs = _find_doc "a" none docs
  exact _find_doc_congr "a.pdf" "a" none docs (by decide)

/-- Witness for C8 on a root document `a`. -/
theorem C8_witness :
    find_file ["a.pdf"] [Entity.doc documentA] = find_file ["a"] [Entity.doc documentA] ∧
    find_file ["a"] [Entity.doc documentA] = some (Entity.doc documentA) :=
  ⟨C8_pdf_suffix_ignored [Entity.doc documentA]
      ⟨documentA, by decide, by decide, by decide⟩,
    by decide⟩

/-- Claim C9: the `.pdf` stripping applies to every path segment and to both
entity kinds — replacing any segment `name` (itself not ending in `.pdf`) by
`name ++ ".pdf"` leaves resolution unchanged, so a directory segment `A.pdf`
resolves to the folder `A` and a Folder named `X` is found under `X.pdf` —
and consequently a Folder whose display name itself ends in `.pdf` is never
returned by `find_file` on its own literal name. -/
theorem C9_segment_stripping (docs : List Entity) (name : String) (p q : List String)
    (hn : ends_with_pdf name = false) :
    find_file (p ++ (name ++ ".pdf") :: q) docs = find_file (p ++ name :: q) docs ∧
    (∀ F : Folder, ends_with_pdf (Folder.visible_name F) = true →
      ∀ pth : List String,
        find_file (pth ++ [Folder.visible_name F]) docs ≠ some (Entity.fold F)) := by
  constructor
  · unfold find_file
    rw [reverse_middle p q (name ++ ".pdf"), reverse_middle p q name]
    exact ff_aux_seg docs (name ++ ".pdf") name
      (by rw [strip_append name, strip_of_not_pdf name hn]) q.reverse p.reverse
  · intro F hF pth hcontra
    have hrev : (pth ++ [Folder.visible_name F]).reverse
        = Folder.visible_name F :: pth.reverse := by
      rw [List.reverse_append]
      rfl
    unfold find_file at hcontra
    rw [hrev] at hcontra
    rcases hp : pth.reverse with _ | ⟨a, t⟩ <;> rw [hp] at hcontra
    · have hvn := (_find_doc_some docs _ _ _ hcontra).2.1
      exact strip_ne_of_pdf _ hF hvn.symm
    · rw [ff_aux_cons docs _ (a :: t) (by simp)] at hcontra
      rcases hfa : ff_aux docs (a :: t) with _ | parent <;> rw [hfa] at hcontra
      · cases hcontra
      · have hvn := (_find_doc_some docs _ _ _ hcontra).2.1
        exact strip_ne_of_pdf _ hF hvn.symm

/-- Witness for C9: a stripped directory segment and a `.pdf`-named folder. -/
theorem C9_witness :
    find_file [("A" ++ ".pdf"), "B.pdf"] sampleOut = find_file ["A", "B.pdf"] sampleOut ∧
    find_file [Folder.visible_name folderXpdf] [Entity.fold folderXpdf]
      ≠ some (Entity.fold folderXpdf) := by
  constructor
  · exact (C9_segment_stripping sampleOut "A" [] ["B.pdf"] (by decide)).1
  · exact (C9_segment_stripping [Entity.fold folderXpdf] "x" [] [] (by decide)).2
      folderXpdf (by decide) []

/-- Claim C10: when the target name (under the resolved parent) is occupied
by a Document, `mkdir` with `exists_ok=False` raises the generic
"folder already exists" error, because the `exists_ok` check runs before the
Document-vs-Folder type check; the distinct "document of same name exists"
error is raised precisely in the `exists_ok=True` case. -/
theorem C10_mkdir_document_collision (docs : List Entity) (fn : RPath)
    (d : Document) (hPR : PrefixFolders docs fn)
    (hfound : find_file fn docs = some (Entity.doc d)) :
    ∀ par, mkdir fn false par docs = Except.error "folder already exists" ∧
      mkdir fn true par docs = Except.error (docExistsMsg fn) := by
  intro par
  constructor
  · rw [mkdir_resolved docs fn hPR false par, hfound]
    rfl
  · rw [mkdir_resolved docs fn hPR true par, hfound]
    rfl

/-- Witness for C10 on the root document `a`. -/
theorem C10_witness :
    mkdir ["a"] false false [Entity.doc documentA]
      = Except.error "folder already exists" ∧
    mkdir ["a"] true false [Entity.doc documentA]
      = Except.error (docExistsMsg ["a"]) :=
  C10_mkdir_document_collision [Entity.doc documentA] ["a"] documentA
    (prefixFolders_single [Entity.doc documentA] "a") (by decide) false
